import Mathlib

/-!
Verification of the training-orchestration core of a speech-enhancement
repository, consisting of `Demucs/denoiser/denoiser/solver.py` (the `Solver`
class: epoch loop, checkpoint/resume state machine, batch processing, loss
composition) and `TAPLoss/TAPLoss.py` (the `AcousticLoss` module and its
spectral transform).

The development is a shallow embedding: loss values are rationals, model and
optimizer states are abstract types, per-epoch losses are oracles `ℕ → ℚ`,
file-system activity is a trace of explicit operations, and the short-time
Fourier transform of `get_stft` is embedded over `ℝ`/`ℂ` at the granularity of
a single analysis frame.
-/

namespace DenoiserSpec

/-! ### Solver.train — metric records and the epoch loop (solver.py lines 148-244)

A metric record is the dictionary `{'train': ..., 'valid': ..., 'best': ...}`
appended to `self.history` once per epoch (line 209/233).  The optional
`pesq`/`stoi` keys added on evaluation epochs (line 226) do not interact with
the claims and are omitted. -/

structure Metrics where
  train : ℚ
  valid : ℚ
  best : ℚ
deriving DecidableEq

instance : Inhabited Metrics := ⟨⟨0, 0, 0⟩⟩

/-- Modelled from the spec: `pull_metric(self.history, 'valid')` lives in
`denoiser/utils.py`, which is not part of the provided sources.  Per the spec,
`best_loss = min(all previously recorded valid losses ∪ {this epoch's valid
loss})`, so `pull_metric` returns the list of previously recorded valid
losses, in order. -/
def pullMetric (history : List Metrics) : List ℚ := history.map Metrics.valid

/-- Python's `min` on a nonempty list (the `[]` case is never reached by the
solver, which always passes `pull_metric(...) + [valid_loss]`). -/
def pymin : List ℚ → ℚ
  | [] => 0
  | x :: xs => xs.foldl min x

/-- Mutable state of the `Solver` touched by the epoch loop: `self.history`
and `self.best_state`.  `M` is the abstract type of model state dicts;
`copy_state` (from `denoiser/utils.py`, not under the provided sources) is a
deep copy, so a snapshot is simply the value itself. -/
structure SolverState (M : Type) where
  history : List Metrics
  bestState : Option M
deriving DecidableEq

/-- Embedding of one iteration of the epoch loop of `Solver.train`
(solver.py lines 162-233), at the granularity of the claims: the per-epoch
train and valid losses are oracles `trainLossOf`/`validLossOf` summarising
`_run_one_epoch`, and `modelAt e` is the model state dict reached after the
training pass of epoch `e`.  When no cross-validation loader exists
(`hasCv = false`), line 206 sets `valid_loss = 0`.  Line 208 computes
`best_loss = min(pull_metric(self.history, 'valid') + [valid_loss])`; line 211
snapshots `self.best_state = copy_state(self.model.state_dict())` when
`valid_loss == best_loss`; line 233 appends the metric record. -/
def epochStep {M : Type} (hasCv : Bool) (trainLossOf validLossOf : ℕ → ℚ)
    (modelAt : ℕ → M) (s : SolverState M) (epoch : ℕ) : SolverState M :=
  let validLoss : ℚ := if hasCv then validLossOf epoch else 0
  let bestLoss : ℚ := pymin (pullMetric s.history ++ [validLoss])
  { history := s.history ++ [⟨trainLossOf epoch, validLoss, bestLoss⟩]
    bestState := if validLoss = bestLoss then some (modelAt epoch) else s.bestState }

/-- Iteration of `epochStep`.  Each step appends one record, so the loop
variable `epoch` of `for epoch in range(len(self.history), self.epochs)` is
always the current history length. -/
def runEpochs {M : Type} (hasCv : Bool) (tl vl : ℕ → ℚ) (modelAt : ℕ → M) :
    ℕ → SolverState M → SolverState M
  | 0, s => s
  | n + 1, s => runEpochs hasCv tl vl modelAt n (epochStep hasCv tl vl modelAt s s.history.length)

/-- State of the solver after the epoch loop has run all epoch indices from
`len(self.history)` up to (exclusive) `upto`. -/
def trainUpto {M : Type} (hasCv : Bool) (tl vl : ℕ → ℚ) (modelAt : ℕ → M)
    (s : SolverState M) (upto : ℕ) : SolverState M :=
  runEpochs hasCv tl vl modelAt (upto - s.history.length) s

/-- Embedding of the epoch loop of `Solver.train` (solver.py line 162):
`for epoch in range(len(self.history), self.epochs)`. -/
def solverTrain {M : Type} (hasCv : Bool) (tl vl : ℕ → ℚ) (modelAt : ℕ → M)
    (epochs : ℕ) (s : SolverState M) : SolverState M :=
  trainUpto hasCv tl vl modelAt s epochs

/-- History invariant of the spec: `history[k]['best']` is the minimum of
`history[0..k]['valid']` for every index `k`. -/
def histInv (h : List Metrics) : Prop :=
  ∀ k, k < h.length → (h.getD k default).best = pymin (pullMetric (h.take (k + 1)))

/-! ### Solver._reset — the resume/checkpoint state machine (solver.py lines 116-146) -/

/-- Checkpoint package as read back by `torch.load` (solver.py line 131):
`package['model']['state']`, `package['best_state']`, the optional
`package['optimizer']` entry, and `package['history']`.  `M` is the abstract
type of model state dicts and `O` of optimizer state dicts. -/
structure Package (M O : Type) where
  modelState : M
  bestState : M
  optimState : Option O
  history : List Metrics
deriving DecidableEq

/-- Solver fields mutated by `_reset`: `self.model`'s weights,
`self.optimizer`'s state, `self.history` and `self.best_state`. -/
structure SolverInit (M O : Type) where
  model : M
  optimizer : O
  history : List Metrics
  bestState : Option M
deriving DecidableEq

/-- Embedding of `Solver._reset` (solver.py lines 116-146).  `ckptEnabled` is
`self.checkpoint`, `ckptExists` is `self.checkpoint_file.exists()`,
`ckptPkg` is the content of the checkpoint file, `continueFrom` is the
content at `args.continue_from` when that path is given, `continueBest` is
`args.continue_best`, `optim` is `args.optim`, and `continuePretrained` the
weights of the named pretrained model, when one is supplied. -/
def solverReset {M O : Type} (ckptEnabled ckptExists restart : Bool)
    (ckptPkg : Package M O) (continueFrom : Option (Package M O))
    (continueBest : Bool) (optim : String) (continuePretrained : Option M)
    (s : SolverInit M O) : SolverInit M O :=
  let lfk : Option (Package M O) × Bool × Bool :=
    if ckptEnabled && ckptExists && !restart then (some ckptPkg, false, true)
    else match continueFrom with
      | some pkg => (some pkg, continueBest, false)
      | none => (none, false, true)
  let s1 : SolverInit M O :=
    match lfk.1 with
    | some pkg =>
      { model := if lfk.2.1 then pkg.bestState else pkg.modelState
        optimizer := if pkg.optimState.isSome && !lfk.2.1 && (optim == "adam")
          then pkg.optimState.getD s.optimizer else s.optimizer
        history := if lfk.2.2 then pkg.history else s.history
        bestState := some pkg.bestState }
    | none => s
  match continuePretrained with
  | some m => { s1 with model := m }
  | none => s1

/-! ### File-system activity — _serialize, save_ckpts and the epoch-end writes
(solver.py lines 82-115 and 238-244) -/

/-- Paths the solver writes: the main checkpoint file, the best-model file,
the history file, the `./checkpoints` directory and the periodic
`./checkpoints/checkpoint_epoch_<n>.pt` files, plus `<p>.tmp` temporaries. -/
inductive FsPath
  | ckptFile
  | bestFile
  | historyFile
  | checkpointsDir
  | epochCkpt (n : ℕ)
  | tmp (p : FsPath)
deriving DecidableEq

/-- File-system operations the solver performs, in program order. -/
inductive FsOp
  | write (p : FsPath)
  | rename (src dst : FsPath)
  | mkdir (p : FsPath)
deriving DecidableEq

/-- Embedding of `Solver._serialize` (solver.py lines 82-101): the package is
saved to `<checkpoint_file>.tmp` then renamed, and the best model to
`<best_file>.tmp` then renamed. -/
def serializeOps : List FsOp :=
  [FsOp.write (FsPath.tmp FsPath.ckptFile),
   FsOp.rename (FsPath.tmp FsPath.ckptFile) FsPath.ckptFile,
   FsOp.write (FsPath.tmp FsPath.bestFile),
   FsOp.rename (FsPath.tmp FsPath.bestFile) FsPath.bestFile]

/-- Embedding of `Solver.save_ckpts` (solver.py lines 103-115): the
`./checkpoints` directory is created whenever it does not exist, and the
periodic named checkpoint is written directly (no temporary, no rename) when
`args.save_checkpoints` is set. -/
def saveCkptsOps (dirExists save : Bool) (epoch : ℕ) : List FsOp :=
  (if !dirExists then [FsOp.mkdir FsPath.checkpointsDir] else []) ++
  (if save then [FsOp.write (FsPath.epochCkpt (epoch + 1))] else [])

/-- Embedding of the end-of-epoch persistence block of `Solver.train`
(solver.py lines 238-244): on the rank-0 worker the history file is
rewritten, and if checkpointing is enabled `save_ckpts()` then `_serialize()`
run. -/
def epochEndOps (rank : ℕ) (checkpoint dirExists save : Bool) (epoch : ℕ) : List FsOp :=
  if rank = 0 then
    FsOp.write FsPath.historyFile ::
      (if checkpoint then saveCkptsOps dirExists save epoch ++ serializeOps else [])
  else []

/-- Checkpoint files among the solver's write targets (the history file is
not a checkpoint). -/
def isCkptTarget : FsPath → Bool
  | FsPath.ckptFile => true
  | FsPath.bestFile => true
  | FsPath.epochCkpt _ => true
  | _ => false

/-- Temporary paths (`<p>.tmp`). -/
def isTmpPath : FsPath → Bool
  | FsPath.tmp _ => true
  | _ => false

/-! ### Solver._run_one_epoch — per-batch control flow (solver.py lines 246-325)

Only the control flow that the claims are about is traced: the mid-epoch
`save_ckpts()` call, the model forward pass, the acoustic-loss invocation
(with the mode string it passes), the optimizer step, and the `ValueError`s
raised during loss composition. -/

inductive Ev
  | saveCkpts
  | forward
  | acCall (mode : String)
  | optStep
deriving DecidableEq

/-- Configuration options consumed by the loss-composition block. -/
structure RunCfg where
  loss : String
  stftLoss : Bool
  acousticLoss : Bool
  acousticLossOnly : Bool
deriving DecidableEq

/-- Events of one iteration of the batch loop (solver.py lines 257-319) for
batch index `i`, together with the `ValueError` it raises, if any.  The
solver invokes `self.ac_loss(...)` without a mode argument (lines 285/296);
the `__call__` default is `"train"`. -/
def batchEvents (cfg : RunCfg) (crossValid : Bool) (i : ℕ) : List Ev × Option String :=
  let pre := (if (i + 1) % 1000 = 0 ∧ crossValid = false then [Ev.saveCkpts] else [])
    ++ [Ev.forward]
  if cfg.acousticLossOnly = false then
    if cfg.loss = "l1" ∨ cfg.loss = "l2" ∨ cfg.loss = "huber" then
      (pre ++ (if cfg.acousticLoss then [Ev.acCall "train"] else [])
        ++ (if crossValid = false then [Ev.optStep] else []), none)
    else (pre, some ("Invalid loss " ++ cfg.loss))
  else if cfg.acousticLoss = false then
    (pre, some "Acoustic Loss must be set to True while Acoustic Only is True")
  else
    (pre ++ [Ev.acCall "train"]
      ++ (if crossValid = false then [Ev.optStep] else []), none)

/-- Batch loop from batch index `i` for `n` further batches; stops at the
first raised error, keeping the events emitted up to that point. -/
def runBatches (cfg : RunCfg) (crossValid : Bool) : ℕ → ℕ → List Ev × Option String
  | _, 0 => ([], none)
  | i, n + 1 =>
    match batchEvents cfg crossValid i with
    | (evs, some e) => (evs, some e)
    | (evs, none) =>
      let rest := runBatches cfg crossValid (i + 1) n
      (evs ++ rest.1, rest.2)

/-- Events of one full pass of `Solver._run_one_epoch` over `numBatches`
batches. -/
def runOneEpochEvents (cfg : RunCfg) (crossValid : Bool) (numBatches : ℕ) :
    List Ev × Option String :=
  runBatches cfg crossValid 0 numBatches

/-! ### AcousticLoss (TAPLoss.py)

The acoustic estimator network and the spectral transform are collaborators
of the distance computation; they enter the embedding as abstract functions.
`sig` stands for `torch.sigmoid` and `sqrtQ` for `** 0.5`.  Embeddings are
matrices (lists of per-frame rows over the acoustic-parameter dimension). -/

/-- Abstract acoustic estimator: its function on spectrograms and its
training flag (`.train()` / `.eval()`). -/
structure AcEstimator where
  apply : List (List ℚ) → List (List ℚ)
  training : Bool

/-- State of an `AcousticLoss` module: the stored loss type and the estimator
(weights already loaded). -/
structure AcousticLoss where
  lossType : String
  est : AcEstimator

/-- Embedding of `AcousticLoss.__init__` (TAPLoss.py lines 10-29): the loss
type is stored without validation (`"l2"`/`"l1"` additionally get a dedicated
torch loss module; any other string is stored unchecked), then the estimator
checkpoint is loaded — the only step that can fail (missing file or shape
mismatch), represented by the `loadCkpt` argument yielding the weight-loaded
estimator. -/
def acousticLossConstruct (lossType : String) (loadCkpt : Except String AcEstimator) :
    Except String AcousticLoss :=
  match loadCkpt with
  | Except.error e => Except.error e
  | Except.ok est => Except.ok ⟨lossType, est⟩

def matSub (A B : List (List ℚ)) : List (List ℚ) :=
  List.zipWith (List.zipWith (fun a b => a - b)) A B

def matSq (A : List (List ℚ)) : List (List ℚ) := A.map (List.map (fun a => a ^ 2))

def matAbs (A : List (List ℚ)) : List (List ℚ) := A.map (List.map (fun a => |a|))

/-- Per-frame broadcast of a weight vector over the embedding dimension:
`w.unsqueeze(-1) * A`. -/
def rowScale (w : List ℚ) (A : List (List ℚ)) : List (List ℚ) :=
  List.zipWith (fun c r => r.map (fun a => c * a)) w A

/-- Embedding of `torch.mean` over a matrix: sum of all entries over their
count. -/
def tmean (A : List (List ℚ)) : ℚ := (A.map List.sum).sum / ((A.map List.length).sum : ℚ)

/-- Mean of a flat list of values. -/
def listMean (l : List ℚ) : ℚ := l.sum / (l.length : ℚ)

/-- Distance computation of `AcousticLoss.forward` (TAPLoss.py lines 56-79)
after the estimator has been put in the behaviour mode `training`:
spectrograms of both waveforms, short-time energy of the enhanced waveform
only, embeddings through the estimator, then the stored loss type selects the
distance; an unrecognized loss type raises here. -/
def acousticLossForwardBody (sig sqrtQ : ℚ → ℚ) (stft : List ℚ → List (List ℚ))
    (stE : List ℚ → List ℚ) (l : AcousticLoss) (cleanWaveform enhanWaveform : List ℚ)
    (training : Bool) : Except String (ℚ × AcousticLoss) :=
  let est : AcEstimator := ⟨l.est.apply, training⟩
  let cleanSpectrogram := stft cleanWaveform
  let enhanSpectrogram := stft enhanWaveform
  let enhanStEnergy := stE enhanWaveform
  let cleanAcoustics := est.apply cleanSpectrogram
  let enhanAcoustics := est.apply enhanSpectrogram
  if l.lossType = "l2" then
    Except.ok (tmean (matSq (matSub enhanAcoustics cleanAcoustics)), ⟨l.lossType, est⟩)
  else if l.lossType = "l1" then
    Except.ok (tmean (matAbs (matSub enhanAcoustics cleanAcoustics)), ⟨l.lossType, est⟩)
  else if l.lossType = "frame_energy_weighted_l2" then
    Except.ok (tmean (matSq (rowScale (enhanStEnergy.map (fun e => sqrtQ (sig e)))
      (matSub enhanAcoustics cleanAcoustics))), ⟨l.lossType, est⟩)
  else if l.lossType = "frame_energy_weighted_l1" then
    Except.ok (tmean (rowScale (enhanStEnergy.map sig)
      (matAbs (matSub enhanAcoustics cleanAcoustics))), ⟨l.lossType, est⟩)
  else Except.error ("Invalid loss_type " ++ l.lossType)

/-- Embedding of `AcousticLoss.forward` (TAPLoss.py lines 34-79): the mode
argument is validated first (`"train"` puts the estimator in training
behaviour, `"eval"` in evaluation behaviour, anything else raises), then the
distance is computed. -/
def acousticLossForward (sig sqrtQ : ℚ → ℚ) (stft : List ℚ → List (List ℚ))
    (stE : List ℚ → List ℚ) (l : AcousticLoss) (cleanWaveform enhanWaveform : List ℚ)
    (mode : String) : Except String (ℚ × AcousticLoss) :=
  if mode = "train" then
    acousticLossForwardBody sig sqrtQ stft stE l cleanWaveform enhanWaveform true
  else if mode = "eval" then
    acousticLossForwardBody sig sqrtQ stft stE l cleanWaveform enhanWaveform false
  else Except.error "Invalid mode, must be either 'train' or 'eval'."

/-- The acoustic-loss invocation as `Solver._run_one_epoch` performs it
(solver.py lines 285/296): `self.ac_loss(clean, estimate)` with no mode
argument, so `__call__`'s default `mode="train"` applies (TAPLoss.py line
31). -/
def solverAcCall (sig sqrtQ : ℚ → ℚ) (stft : List ℚ → List (List ℚ))
    (stE : List ℚ → List ℚ) (l : AcousticLoss) (cleanWaveform enhanWaveform : List ℚ) :
    Except String (ℚ × AcousticLoss) :=
  acousticLossForward sig sqrtQ stft stE l cleanWaveform enhanWaveform "train"

/-- Value component of a forward call. -/
def acousticLossValue (r : Except String (ℚ × AcousticLoss)) : Except String ℚ :=
  r.map Prod.fst

/-- Spec formula for loss kind `l2`: mean squared error between the two
embeddings. -/
def specMSE (A B : List (List ℚ)) : ℚ :=
  listMean (List.zipWith (fun a b => (a - b) ^ 2) A.flatten B.flatten)

/-- Spec formula for loss kind `l1`: mean absolute error between the two
embeddings. -/
def specMAE (A B : List (List ℚ)) : ℚ :=
  listMean (List.zipWith (fun a b => |a - b|) A.flatten B.flatten)

/-- Spec formula for `frame_energy_weighted_l2`: mean of
`(w · (enhanced − clean))²` with the per-frame weight
`w = sqrt(sigmoid(enhanced short-time energy))` broadcast over the embedding
dimension. -/
def specFEWL2 (sig sqrtQ : ℚ → ℚ) (E : List ℚ) (A B : List (List ℚ)) : ℚ :=
  listMean ((List.zipWith (fun e r => r.map (fun d => (sqrtQ (sig e) * d) ^ 2))
    E (matSub A B)).flatten)

/-- Spec formula for `frame_energy_weighted_l1`: mean of
`sigmoid(enhanced short-time energy) · |enhanced − clean|`, the per-frame
weight broadcast over the embedding dimension. -/
def specFEWL1 (sig : ℚ → ℚ) (E : List ℚ) (A B : List (List ℚ)) : ℚ :=
  listMean ((List.zipWith (fun e r => r.map (fun d => sig e * |d|))
    E (matSub A B)).flatten)

/-! ### get_stft — spectral transform and short-time energy (TAPLoss.py lines 82-107)

`torch.stft` with `n_fft = 512`, `hop_length = 160`, rectangular window,
one-sided spectrum, is embedded at the granularity of a single analysis
frame: `dft N x k` is the `k`-th DFT coefficient of frame `x`, whose real and
imaginary parts are the entries of `spec_real`/`spec_imag` for that frame,
and line 104 computes the per-frame short-time energy
`sum_k (re² + im²) * 2/nfft` over the one-sided bins `k = 0..nfft/2`. -/

def nfft : ℕ := 512

def hopLength : ℕ := 160

/-- Samples of the analysis frame starting at hop `t` of waveform `w`
(rectangular window of length `nfft`). -/
def frameOf (w : ℕ → ℝ) (t : ℕ) : ℕ → ℝ := fun n => w (t * hopLength + n)

noncomputable def dft (N : ℕ) (x : ℕ → ℝ) (k : ℕ) : ℂ :=
  ∑ n ∈ Finset.range N, (x n : ℂ) *
    Complex.exp (-(2 * (Real.pi : ℂ) * k * n / N) * Complex.I)

/-- Entry `k` of `spec_real` for one frame. -/
noncomputable def specRealPart (N : ℕ) (x : ℕ → ℝ) (k : ℕ) : ℝ := (dft N x k).re

/-- Entry `k` of `spec_imag` for one frame. -/
noncomputable def specImagPart (N : ℕ) (x : ℕ → ℝ) (k : ℕ) : ℝ := (dft N x k).im

/-- Short-time energy of one frame as computed on TAPLoss.py line 104:
`torch.mul(torch.sum(spec_real**2 + spec_imag**2, dim=1), 2/self.nfft)`,
the sum running over the one-sided frequency bins `0..nfft/2`. -/
noncomputable def stEnergyFrame (x : ℕ → ℝ) : ℝ :=
  (∑ k ∈ Finset.range (nfft / 2 + 1),
    (specRealPart nfft x k ^ 2 + specImagPart nfft x k ^ 2)) * (2 / (nfft : ℝ))

/-- Time-domain energy of one (rectangular-)windowed analysis frame: the sum
of its squared samples. -/
noncomputable def frameTimeEnergy (x : ℕ → ℝ) : ℝ := ∑ n ∈ Finset.range nfft, x n ^ 2

/-- Primitive `N`-th root-of-unity power: `exp(2πi·j/N)`. -/
noncomputable def eC (N : ℕ) (j : ℤ) : ℂ :=
  Complex.exp (2 * (Real.pi : ℂ) * Complex.I * j / N)

theorem epochStep_history_length {M : Type} (hasCv : Bool) (tl vl : ℕ → ℚ)
    (modelAt : ℕ → M) (s : SolverState M) (e : ℕ) :
    (epochStep hasCv tl vl modelAt s e).history.length = s.history.length + 1 := by
  simp [epochStep]

theorem runEpochs_history_length {M : Type} (hasCv : Bool) (tl vl : ℕ → ℚ)
    (modelAt : ℕ → M) (n : ℕ) (s : SolverState M) :
    (runEpochs hasCv tl vl modelAt n s).history.length = s.history.length + n := by
  induction n generalizing s with
  | zero => rfl
  | succ n ih =>
    rw [runEpochs, ih, epochStep_history_length]
    omega

theorem runEpochs_succ_back {M : Type} (hasCv : Bool) (tl vl : ℕ → ℚ)
    (modelAt : ℕ → M) (n : ℕ) (s : SolverState M) :
    runEpochs hasCv tl vl modelAt (n + 1) s =
      epochStep hasCv tl vl modelAt (runEpochs hasCv tl vl modelAt n s)
        (s.history.length + n) := by
  induction n generalizing s with
  | zero => simp [runEpochs]
  | succ n ih =>
    rw [runEpochs, ih, epochStep_history_length]
    rw [runEpochs]
    congr 1
    omega

theorem histInv_append (h : List Metrics) (t v : ℚ) (hinv : histInv h) :
    histInv (h ++ [⟨t, v, pymin (pullMetric h ++ [v])⟩]) := by
  intro k hk
  simp only [List.length_append, List.length_cons, List.length_nil] at hk
  rcases Nat.lt_or_ge k h.length with hlt | hge
  · rw [List.getD_append _ _ _ _ hlt, List.take_append_of_le_length (by omega)]
    exact hinv k hlt
  · have hk' : k = h.length := by omega
    subst hk'
    rw [List.getD_append_right _ _ _ _ (le_refl _)]
    simp only [Nat.sub_self, List.getD, List.get?, List.getElem?_cons_zero, Option.getD_some]
    have htake : (h ++ [(⟨t, v, pymin (pullMetric h ++ [v])⟩ : Metrics)]).take (h.length + 1)
        = h ++ [⟨t, v, pymin (pullMetric h ++ [v])⟩] := by
      apply List.take_of_length_le
      simp
    rw [htake]
    simp [pullMetric, List.map_append]

theorem histInv_epochStep {M : Type} (hasCv : Bool) (tl vl : ℕ → ℚ)
    (modelAt : ℕ → M) (s : SolverState M) (e : ℕ) (hinv : histInv s.history) :
    histInv (epochStep hasCv tl vl modelAt s e).history := by
  exact histInv_append s.history _ _ hinv

theorem histInv_runEpochs {M : Type} (hasCv : Bool) (tl vl : ℕ → ℚ)
    (modelAt : ℕ → M) (n : ℕ) (s : SolverState M) (hinv : histInv s.history) :
    histInv (runEpochs hasCv tl vl modelAt n s).history := by
  induction n generalizing s with
  | zero => exact hinv
  | succ n ih => exact ih _ (histInv_epochStep hasCv tl vl modelAt s _ hinv)

theorem trainUpto_succ {M : Type} (hasCv : Bool) (tl vl : ℕ → ℚ) (modelAt : ℕ → M)
    (s : SolverState M) (e : ℕ) (he : s.history.length ≤ e) :
    trainUpto hasCv tl vl modelAt s (e + 1) =
      epochStep hasCv tl vl modelAt (trainUpto hasCv tl vl modelAt s e) e := by
  unfold trainUpto
  have h1 : e + 1 - s.history.length = (e - s.history.length) + 1 := by omega
  rw [h1, runEpochs_succ_back]
  congr 1
  omega

theorem trainUpto_history_length {M : Type} (hasCv : Bool) (tl vl : ℕ → ℚ)
    (modelAt : ℕ → M) (s : SolverState M) (e : ℕ) (he : s.history.length ≤ e) :
    (trainUpto hasCv tl vl modelAt s e).history.length = e := by
  unfold trainUpto
  rw [runEpochs_history_length]
  omega

theorem runEpochs_add {M : Type} (hasCv : Bool) (tl vl : ℕ → ℚ) (modelAt : ℕ → M)
    (a b : ℕ) (s : SolverState M) :
    runEpochs hasCv tl vl modelAt (a + b) s =
      runEpochs hasCv tl vl modelAt b (runEpochs hasCv tl vl modelAt a s) := by
  induction a generalizing s with
  | zero => rw [Nat.zero_add]; rfl
  | succ a ih =>
    calc runEpochs hasCv tl vl modelAt (a + 1 + b) s
        = runEpochs hasCv tl vl modelAt ((a + b) + 1) s := by
          rw [show a + 1 + b = (a + b) + 1 by omega]
      _ = runEpochs hasCv tl vl modelAt (a + b)
            (epochStep hasCv tl vl modelAt s s.history.length) := rfl
      _ = runEpochs hasCv tl vl modelAt b (runEpochs hasCv tl vl modelAt a
            (epochStep hasCv tl vl modelAt s s.history.length)) := ih _
      _ = runEpochs hasCv tl vl modelAt b (runEpochs hasCv tl vl modelAt (a + 1) s) := rfl

theorem runEpochs_history_append {M : Type} (hasCv : Bool) (tl vl : ℕ → ℚ)
    (modelAt : ℕ → M) (n : ℕ) (s : SolverState M) :
    ∃ t, (runEpochs hasCv tl vl modelAt n s).history = s.history ++ t := by
  induction n generalizing s with
  | zero => exact ⟨[], by simp [runEpochs]⟩
  | succ n ih =>
    obtain ⟨t, ht⟩ := ih (epochStep hasCv tl vl modelAt s s.history.length)
    refine ⟨(epochStep hasCv tl vl modelAt s s.history.length).history.drop s.history.length
      ++ t, ?_⟩
    rw [runEpochs, ht]
    simp [epochStep, List.drop_left]

theorem foldl_min_nonneg (l : List ℚ) (a : ℚ) (h0 : 0 ≤ a) (h : ∀ y ∈ l, 0 ≤ y) :
    0 ≤ l.foldl min a := by
  induction l generalizing a with
  | nil => exact h0
  | cons x xs ih =>
    exact ih (min a x) (le_min h0 (h x (List.mem_cons_self x xs)))
      (fun y hy => h y (List.mem_cons_of_mem x hy))

theorem pymin_append_zero (l : List ℚ) (h : ∀ y ∈ l, 0 ≤ y) : pymin (l ++ [0]) = 0 := by
  cases l with
  | nil => rfl
  | cons x xs =>
    show (xs ++ [(0 : ℚ)]).foldl min x = 0
    rw [List.foldl_append]
    exact min_eq_right (foldl_min_nonneg xs x (h x (List.mem_cons_self x xs))
      (fun y hy => h y (List.mem_cons_of_mem x hy)))

theorem epochStep_no_cv {M : Type} (tl vl : ℕ → ℚ) (modelAt : ℕ → M)
    (s : SolverState M) (e : ℕ) (hnn : ∀ m ∈ s.history, 0 ≤ m.valid) :
    epochStep false tl vl modelAt s e =
      { history := s.history ++ [⟨tl e, 0, 0⟩], bestState := some (modelAt e) } := by
  have hb : pymin (pullMetric s.history ++ [0]) = 0 := by
    apply pymin_append_zero
    intro y hy
    simp only [pullMetric, List.mem_map] at hy
    obtain ⟨m, hm, rfl⟩ := hy
    exact hnn m hm
  simp [epochStep, hb]

theorem epochStep_no_cv_nonneg {M : Type} (tl vl : ℕ → ℚ) (modelAt : ℕ → M)
    (s : SolverState M) (e : ℕ) (hnn : ∀ m ∈ s.history, 0 ≤ m.valid) :
    ∀ m ∈ (epochStep false tl vl modelAt s e).history, 0 ≤ m.valid := by
  rw [epochStep_no_cv tl vl modelAt s e hnn]
  intro m hm
  simp only [List.mem_append, List.mem_singleton] at hm
  rcases hm with hm | rfl
  · exact hnn m hm
  · exact le_refl 0

theorem runEpochs_no_cv_nonneg {M : Type} (tl vl : ℕ → ℚ) (modelAt : ℕ → M)
    (n : ℕ) (s : SolverState M) (hnn : ∀ m ∈ s.history, 0 ≤ m.valid) :
    ∀ m ∈ (runEpochs false tl vl modelAt n s).history, 0 ≤ m.valid := by
  induction n generalizing s with
  | zero => exact hnn
  | succ n ih => exact ih _ (epochStep_no_cv_nonneg tl vl modelAt s _ hnn)

/-- C1: the Solver's epoch loop iterates epoch indices from `len(history)` up
to (exclusive) the configured epoch budget, with the starting history
untouched and exactly one metric record appended per epoch (the history length
grows from `len(history)` to `epochs`, one `epochStep` per index); after every
epoch, `history[k]['best'] = min(history[0..k]['valid'])` holds for every `k`;
and whenever the current epoch's valid loss equals that minimum, the current
model state is snapshotted as the best state. -/
theorem solverTrain_epoch_loop_spec {M : Type} (hasCv : Bool) (tl vl : ℕ → ℚ)
    (modelAt : ℕ → M) (epochs : ℕ) (s : SolverState M)
    (hlen : s.history.length ≤ epochs) (hinv : histInv s.history) :
    (solverTrain hasCv tl vl modelAt epochs s).history.length = epochs ∧
    (solverTrain hasCv tl vl modelAt epochs s).history.take s.history.length = s.history ∧
    histInv (solverTrain hasCv tl vl modelAt epochs s).history ∧
    (∀ e, s.history.length ≤ e → e < epochs →
      (trainUpto hasCv tl vl modelAt s e).history.length = e ∧
      trainUpto hasCv tl vl modelAt s (e + 1) =
        epochStep hasCv tl vl modelAt (trainUpto hasCv tl vl modelAt s e) e ∧
      ((if hasCv then vl e else 0) =
          pymin (pullMetric (trainUpto hasCv tl vl modelAt s e).history
            ++ [if hasCv then vl e else 0]) →
        (trainUpto hasCv tl vl modelAt s (e + 1)).bestState = some (modelAt e))) := by
  refine ⟨trainUpto_history_length hasCv tl vl modelAt s epochs hlen, ?_, ?_, ?_⟩
  · obtain ⟨t, ht⟩ := runEpochs_history_append hasCv tl vl modelAt
      (epochs - s.history.length) s
    show (runEpochs hasCv tl vl modelAt (epochs - s.history.length) s).history.take
      s.history.length = s.history
    rw [ht]
    exact List.take_left s.history t
  · exact histInv_runEpochs hasCv tl vl modelAt _ s hinv
  · intro e he1 he2
    refine ⟨trainUpto_history_length hasCv tl vl modelAt s e he1,
      trainUpto_succ hasCv tl vl modelAt s e he1, ?_⟩
    intro hv
    rw [trainUpto_succ hasCv tl vl modelAt s e he1]
    simp only [epochStep]
    rw [if_pos hv]

theorem solverTrain_epoch_loop_spec_witness :
    (solverTrain true (fun e => (e : ℚ)) (fun e => (e : ℚ)) (fun e => e) 2
      (⟨[], none⟩ : SolverState ℕ)).history.length = 2 :=
  (solverTrain_epoch_loop_spec true (fun e => (e : ℚ)) (fun e => (e : ℚ)) (fun e => e) 2
    ⟨[], none⟩ (by simp) (by intro k hk; simp at hk)).1

/-- C9: when no validation data loader exists (`hasCv = false`) every epoch
records a valid loss of `0` and a best loss of `0`, and the best-state
snapshot is overwritten with the current model state at the end of every
epoch (given that the pre-existing records, if any, have nonnegative valid
losses, as every record this loop writes does). -/
theorem solverTrain_no_validation_spec {M : Type} (tl vl : ℕ → ℚ) (modelAt : ℕ → M)
    (epochs : ℕ) (s : SolverState M) (hnn : ∀ m ∈ s.history, 0 ≤ m.valid)
    (hlen : s.history.length ≤ epochs) :
    ∀ e, s.history.length ≤ e → e < epochs →
      (solverTrain false tl vl modelAt epochs s).history.getD e default =
        (⟨tl e, 0, 0⟩ : Metrics) ∧
      (trainUpto false tl vl modelAt s (e + 1)).bestState = some (modelAt e) := by
  intro e he1 he2
  have hnnE : ∀ m ∈ (trainUpto false tl vl modelAt s e).history, 0 ≤ m.valid :=
    runEpochs_no_cv_nonneg tl vl modelAt _ s hnn
  have hlenE : (trainUpto false tl vl modelAt s e).history.length = e :=
    trainUpto_history_length false tl vl modelAt s e he1
  have hstep : trainUpto false tl vl modelAt s (e + 1) =
      { history := (trainUpto false tl vl modelAt s e).history ++ [⟨tl e, 0, 0⟩],
        bestState := some (modelAt e) } := by
    rw [trainUpto_succ false tl vl modelAt s e he1]
    exact epochStep_no_cv tl vl modelAt _ e hnnE
  constructor
  · have hdecomp : solverTrain false tl vl modelAt epochs s =
        runEpochs false tl vl modelAt (epochs - (e + 1))
          (trainUpto false tl vl modelAt s (e + 1)) := by
      show runEpochs false tl vl modelAt (epochs - s.history.length) s = _
      rw [show epochs - s.history.length
        = ((e + 1) - s.history.length) + (epochs - (e + 1)) by omega]
      rw [runEpochs_add]
      rfl
    obtain ⟨t, ht⟩ := runEpochs_history_append false tl vl modelAt (epochs - (e + 1))
      (trainUpto false tl vl modelAt s (e + 1))
    rw [hdecomp, ht, hstep]
    have h1 : e < ((trainUpto false tl vl modelAt s e).history ++ [(⟨tl e, 0, 0⟩ : Metrics)]).length := by
      simp [hlenE]
    rw [List.getD_append _ _ _ _ h1, List.getD_append_right _ _ _ _ hlenE.le, hlenE]
    simp
  · rw [hstep]

theorem solverTrain_no_validation_spec_witness :
    (solverTrain false (fun _ => (1 : ℚ)) (fun _ => (5 : ℚ)) (fun e => e) 1
      (⟨[], none⟩ : SolverState ℕ)).history.getD 0 default = (⟨1, 0, 0⟩ : Metrics) ∧
    (trainUpto false (fun _ => (1 : ℚ)) (fun _ => (5 : ℚ)) (fun e => e)
      (⟨[], none⟩ : SolverState ℕ) 1).bestState = some 0 :=
  solverTrain_no_validation_spec (fun _ => (1 : ℚ)) (fun _ => (5 : ℚ)) (fun e => e) 1
    ⟨[], none⟩ (by intro m hm; simp at hm) (by simp) 0 (by simp) (by norm_num)

/-- C3 counterexample: with no resumable checkpoint (checkpointing disabled
here), an external continue-from package whose optimizer entry is `some 7`,
`continue_best` unset and `optim = "adam"`, `_reset` does NOT load model
state only: the solver's optimizer state changes from `0` to the package's
`7` (and the best-state snapshot is adopted as well). -/
theorem solverReset_external_counterexample :
    (solverReset false false false (⟨0, 0, none, []⟩ : Package ℕ ℕ)
      (some ⟨5, 9, some 7, [⟨1, 1, 1⟩]⟩) false "adam" none
      ⟨0, 0, [], none⟩).optimizer = 7 ∧
    (⟨0, 0, [], none⟩ : SolverInit ℕ ℕ).optimizer = 0 ∧
    (solverReset false false false (⟨0, 0, none, []⟩ : Package ℕ ℕ)
      (some ⟨5, 9, some 7, [⟨1, 1, 1⟩]⟩) false "adam" none
      ⟨0, 0, [], none⟩).bestState = some 9 := by
  decide

/-- C3 (amended): when no resumable checkpoint is found and an external
continue-from package is given (no pretrained override), `_reset` loads the
model state — the best-state snapshot instead of the latest state when the
continue-best flag is set — and does not carry over history, so epoch
counting restarts from the initial (empty) history; but not the model state
only: the package's best-state snapshot is adopted, and the optimizer state
is also restored whenever continue-best is unset, the configured optimizer is
`"adam"` and the package contains an optimizer entry. -/
theorem solverReset_external_spec {M O : Type} (ckptEnabled ckptExists restart : Bool)
    (ckptPkg : Package M O) (pkg : Package M O) (continueBest : Bool) (optim : String)
    (s : SolverInit M O)
    (hnoresume : (ckptEnabled && ckptExists && !restart) = false) :
    solverReset ckptEnabled ckptExists restart ckptPkg (some pkg) continueBest optim none s =
      { model := if continueBest then pkg.bestState else pkg.modelState
        optimizer := if pkg.optimState.isSome && !continueBest && (optim == "adam")
          then pkg.optimState.getD s.optimizer else s.optimizer
        history := s.history
        bestState := some pkg.bestState } := by
  simp [solverReset, hnoresume]

theorem solverReset_external_spec_witness :
    solverReset true false false (⟨0, 0, none, []⟩ : Package ℕ ℕ)
      (some ⟨5, 9, some 7, []⟩) false "adam" none ⟨0, 0, [], none⟩ =
      ⟨5, 7, [], some 9⟩ :=
  (solverReset_external_spec true false false (⟨0, 0, none, []⟩ : Package ℕ ℕ)
    ⟨5, 9, some 7, []⟩ false "adam" ⟨0, 0, [], none⟩ (by decide)).trans (by decide)

/-- Does this operation rename something onto path `p`? -/
def renamesTo (op : FsOp) (p : FsPath) : Bool :=
  match op with
  | FsOp.rename _ dst => dst == p
  | _ => false

/-- C4 counterexample: at the end of epoch 0 on the rank-0 worker with
checkpointing enabled and the periodic-save toggle on, the periodic named
checkpoint `./checkpoints/checkpoint_epoch_1.pt` — a checkpoint file — is
written directly: the write target is not a temporary, and no rename in the
trace produces that file. -/
theorem epochEndOps_atomicity_counterexample :
    FsOp.write (FsPath.epochCkpt 1) ∈ epochEndOps 0 true false true 0 ∧
    isCkptTarget (FsPath.epochCkpt 1) = true ∧
    isTmpPath (FsPath.epochCkpt 1) = false ∧
    (∀ op ∈ epochEndOps 0 true false true 0, renamesTo op (FsPath.epochCkpt 1) = false) := by
  decide

/-- C4 (amended): the main checkpoint file and the best-model file written by
`_serialize` are produced only by a write to the `.tmp` temporary followed by
a rename (in that order, per the `serializeOps` trace), so those two files
are never observable in a partial state; the periodic named checkpoints
written by `save_ckpts`, however, are written directly, with no temporary and
no rename. -/
theorem epochEndOps_write_discipline (rank : ℕ) (checkpoint dirExists save : Bool)
    (e : ℕ) :
    FsOp.write FsPath.ckptFile ∉ epochEndOps rank checkpoint dirExists save e ∧
    FsOp.write FsPath.bestFile ∉ epochEndOps rank checkpoint dirExists save e ∧
    serializeOps = [FsOp.write (FsPath.tmp FsPath.ckptFile),
      FsOp.rename (FsPath.tmp FsPath.ckptFile) FsPath.ckptFile,
      FsOp.write (FsPath.tmp FsPath.bestFile),
      FsOp.rename (FsPath.tmp FsPath.bestFile) FsPath.bestFile] ∧
    (rank = 0 → checkpoint = true →
      FsOp.rename (FsPath.tmp FsPath.ckptFile) FsPath.ckptFile ∈
        epochEndOps rank checkpoint dirExists save e ∧
      FsOp.rename (FsPath.tmp FsPath.bestFile) FsPath.bestFile ∈
        epochEndOps rank checkpoint dirExists save e) ∧
    (rank = 0 → checkpoint = true → save = true →
      FsOp.write (FsPath.epochCkpt (e + 1)) ∈ epochEndOps rank checkpoint dirExists save e ∧
      FsOp.write (FsPath.tmp (FsPath.epochCkpt (e + 1))) ∉
        epochEndOps rank checkpoint dirExists save e ∧
      ∀ op ∈ epochEndOps rank checkpoint dirExists save e,
        renamesTo op (FsPath.epochCkpt (e + 1)) = false) := by
  by_cases hr : rank = 0 <;>
    cases checkpoint <;> cases dirExists <;> cases save <;>
      simp [epochEndOps, saveCkptsOps, serializeOps, renamesTo, hr]

theorem epochEndOps_write_discipline_witness :
    FsOp.rename (FsPath.tmp FsPath.ckptFile) FsPath.ckptFile ∈ epochEndOps 0 true false true 0 ∧
    FsOp.write (FsPath.epochCkpt 1) ∈ epochEndOps 0 true false true 0 :=
  ⟨((epochEndOps_write_discipline 0 true false true 0).2.2.2.1 rfl rfl).1,
   ((epochEndOps_write_discipline 0 true false true 0).2.2.2.2 rfl rfl rfl).1⟩

/-- C10: every invocation of `save_ckpts` creates the `./checkpoints`
directory when it does not exist — also when the periodic-save toggle is
disabled — and in the disabled case writes nothing inside it (the trace is
the mkdir alone, or empty); moreover the mid-epoch call sites are exactly
the training-pass batches with `(i+1) % 1000 == 0`. -/
theorem saveCkpts_mkdir_spec (dirExists save : Bool) (e : ℕ) :
    (dirExists = false → FsOp.mkdir FsPath.checkpointsDir ∈ saveCkptsOps dirExists save e) ∧
    (dirExists = true → FsOp.mkdir FsPath.checkpointsDir ∉ saveCkptsOps dirExists save e) ∧
    (save = false → saveCkptsOps dirExists save e =
      if dirExists then [] else [FsOp.mkdir FsPath.checkpointsDir]) ∧
    (∀ cfg : RunCfg, ∀ crossValid : Bool, ∀ i : ℕ,
      (Ev.saveCkpts ∈ (batchEvents cfg crossValid i).1 ↔
        ((i + 1) % 1000 = 0 ∧ crossValid = false))) := by
  refine ⟨?_, ?_, ?_, ?_⟩
  · intro h; cases save <;> simp [saveCkptsOps, h]
  · intro h; cases save <;> simp [saveCkptsOps, h]
  · intro h; cases dirExists <;> simp [saveCkptsOps, h]
  · intro cfg crossValid i
    unfold batchEvents
    split_ifs <;> simp_all [List.mem_append]

theorem saveCkpts_mkdir_spec_witness :
    FsOp.mkdir FsPath.checkpointsDir ∈ saveCkptsOps false false 3 ∧
    saveCkptsOps false false 3 = [FsOp.mkdir FsPath.checkpointsDir] ∧
    (Ev.saveCkpts ∈ (batchEvents ⟨"l1", false, false, false⟩ false 999).1 ↔
      (999 + 1) % 1000 = 0 ∧ false = false) :=
  ⟨(saveCkpts_mkdir_spec false false 3).1 rfl,
   ((saveCkpts_mkdir_spec false false 3).2.2.1 rfl).trans (by decide),
   (saveCkpts_mkdir_spec false false 3).2.2.2 ⟨"l1", false, false, false⟩ false 999⟩

/-- C5 counterexample: with acoustic-loss-only requested while acoustic loss
is disabled, a pass over one batch does raise the configuration `ValueError`,
but not before any batch is processed: the model forward pass of the first
batch has already run when the error is raised. -/
theorem runOneEpoch_acousticOnly_counterexample :
    (runOneEpochEvents ⟨"l1", false, false, true⟩ false 1).2 =
      some "Acoustic Loss must be set to True while Acoustic Only is True" ∧
    Ev.forward ∈ (runOneEpochEvents ⟨"l1", false, false, true⟩ false 1).1 := by
  decide

/-- C5 (amended): if the configuration requests acoustic-loss-only mode while
acoustic loss is disabled, any pass that processes at least one batch fails
with the configuration `ValueError` — raised while processing the FIRST
batch, after that batch's model forward pass and before any acoustic-loss
call or optimizer step (the event trace of the pass is exactly one forward). -/
theorem runOneEpoch_acousticOnly_error (cfg : RunCfg) (crossValid : Bool) (n : ℕ)
    (honly : cfg.acousticLossOnly = true) (hac : cfg.acousticLoss = false)
    (hn : 1 ≤ n) :
    (runOneEpochEvents cfg crossValid n).2 =
      some "Acoustic Loss must be set to True while Acoustic Only is True" ∧
    (runOneEpochEvents cfg crossValid n).1 = [Ev.forward] := by
  obtain ⟨m, rfl⟩ : ∃ m, n = m + 1 := ⟨n - 1, by omega⟩
  unfold runOneEpochEvents runBatches
  unfold batchEvents
  rw [honly, hac]
  simp

theorem runOneEpoch_acousticOnly_error_witness :
    (runOneEpochEvents ⟨"l1", true, false, true⟩ false 3).2 =
      some "Acoustic Loss must be set to True while Acoustic Only is True" ∧
    (runOneEpochEvents ⟨"l1", true, false, true⟩ false 3).1 = [Ev.forward] :=
  runOneEpoch_acousticOnly_error ⟨"l1", true, false, true⟩ false 3 rfl rfl (by omega)

/-- C6 counterexample: constructing an `AcousticLoss` with the unrecognized
loss kind `"bogus"` (checkpoint loading succeeding) does NOT fail: the
constructor stores the kind unchecked, so no configuration error is raised at
construction. -/
theorem acousticLossConstruct_counterexample :
    (acousticLossConstruct "bogus" (Except.ok ⟨id, false⟩)
      matches Except.ok _) ∧
    ("bogus" ≠ "l2" ∧ "bogus" ≠ "l1" ∧ "bogus" ≠ "frame_energy_weighted_l2" ∧
      "bogus" ≠ "frame_energy_weighted_l1") := by
  exact ⟨by constructor, by decide⟩

/-- C6 (amended): construction never validates the loss kind — it succeeds
for every kind whenever the estimator checkpoint loads (and fails exactly
when the load fails); the unrecognized-kind configuration error is deferred
to the first `forward` call, which raises `Invalid loss_type ...`. -/
theorem acousticLoss_kind_error_deferred (lossType : String) (est : AcEstimator) :
    acousticLossConstruct lossType (Except.ok est) = Except.ok ⟨lossType, est⟩ ∧
    (∀ e, acousticLossConstruct lossType (Except.error e) = Except.error e) ∧
    (lossType ≠ "l2" → lossType ≠ "l1" → lossType ≠ "frame_energy_weighted_l2" →
      lossType ≠ "frame_energy_weighted_l1" →
      ∀ (sig sqrtQ : ℚ → ℚ) (stft : List ℚ → List (List ℚ)) (stE : List ℚ → List ℚ)
        (clean enhan : List ℚ),
        acousticLossForward sig sqrtQ stft stE ⟨lossType, est⟩ clean enhan "train" =
          Except.error ("Invalid loss_type " ++ lossType)) := by
  refine ⟨rfl, fun e => rfl, ?_⟩
  intro h2 h1 hw2 hw1 sig sqrtQ stft stE clean enhan
  simp [acousticLossForward, acousticLossForwardBody, h2, h1, hw2, hw1]

theorem acousticLoss_kind_error_deferred_witness :
    acousticLossConstruct "bogus" (Except.ok ⟨id, false⟩) =
      Except.ok ⟨"bogus", ⟨id, false⟩⟩ ∧
    acousticLossForward id id (fun _ => []) (fun _ => []) ⟨"bogus", ⟨id, false⟩⟩
      [] [] "train" = Except.error ("Invalid loss_type " ++ "bogus") :=
  ⟨(acousticLoss_kind_error_deferred "bogus" ⟨id, false⟩).1,
   (acousticLoss_kind_error_deferred "bogus" ⟨id, false⟩).2.2 (by decide) (by decide)
     (by decide) (by decide) id id (fun _ => []) (fun _ => []) [] []⟩

/-- C8: the solver invokes the acoustic loss with no mode argument, so
`__call__`'s default `"train"` applies; every acoustic-loss call in any batch
trace — validation passes included — carries mode `"train"`, such a call does
occur on validation batches whenever the configuration computes an acoustic
loss, and a `"train"`-mode forward leaves the estimator's training flag set. -/
theorem solver_invokes_train_mode :
    (∀ (sig sqrtQ : ℚ → ℚ) (stft : List ℚ → List (List ℚ)) (stE : List ℚ → List ℚ)
      (l : AcousticLoss) (clean enhan : List ℚ),
      solverAcCall sig sqrtQ stft stE l clean enhan =
        acousticLossForward sig sqrtQ stft stE l clean enhan "train") ∧
    (∀ (cfg : RunCfg) (crossValid : Bool) (i : ℕ) (m : String),
      Ev.acCall m ∈ (batchEvents cfg crossValid i).1 → m = "train") ∧
    (∀ (cfg : RunCfg) (i : ℕ), cfg.acousticLoss = true →
      (cfg.acousticLossOnly = true ∨ cfg.loss = "l1" ∨ cfg.loss = "l2" ∨
        cfg.loss = "huber") →
      Ev.acCall "train" ∈ (batchEvents cfg true i).1) ∧
    (∀ (sig sqrtQ : ℚ → ℚ) (stft : List ℚ → List (List ℚ)) (stE : List ℚ → List ℚ)
      (l : AcousticLoss) (clean enhan : List ℚ) (v : ℚ) (l' : AcousticLoss),
      acousticLossForward sig sqrtQ stft stE l clean enhan "train" =
        Except.ok (v, l') → l'.est.training = true) := by
  refine ⟨fun _ _ _ _ _ _ _ => rfl, ?_, ?_, ?_⟩
  · intro cfg crossValid i m hm
    unfold batchEvents at hm
    split_ifs at hm <;> simp_all [List.mem_append]
  · intro cfg i hac hkind
    unfold batchEvents
    rcases hkind with honly | hkind
    · rw [honly]
      simp [hac]
    · have : (cfg.loss = "l1" ∨ cfg.loss = "l2" ∨ cfg.loss = "huber") := hkind
      by_cases honly : cfg.acousticLossOnly = true
      · rw [honly]; simp [hac]
      · have honly' : cfg.acousticLossOnly = false := by
          cases h : cfg.acousticLossOnly
          · rfl
          · exact absurd h honly
        rw [honly']
        simp [this, hac]
  · intro sig sqrtQ stft stE l clean enhan v l' h
    rw [show acousticLossForward sig sqrtQ stft stE l clean enhan "train"
      = acousticLossForwardBody sig sqrtQ stft stE l clean enhan true by
        simp [acousticLossForward]] at h
    unfold acousticLossForwardBody at h
    split_ifs at h <;>
      (simp only [Except.ok.injEq, Prod.mk.injEq] at h
       obtain ⟨-, h2⟩ := h
       subst h2
       rfl)

theorem solver_invokes_train_mode_witness :
    Ev.acCall "train" ∈ (batchEvents ⟨"l1", false, true, false⟩ true 0).1 ∧
    ((⟨"l2", ⟨id, true⟩⟩ : AcousticLoss).est.training = true) :=
  ⟨solver_invokes_train_mode.2.2.1 ⟨"l1", false, true, false⟩ 0 rfl (Or.inr (Or.inl rfl)),
   solver_invokes_train_mode.2.2.2 id id (fun _ => []) (fun _ => [])
     ⟨"l2", ⟨id, false⟩⟩ [] [] (tmean (matSq (matSub (id ((fun _ => ([] : List (List ℚ))) ([] : List ℚ))) (id ((fun _ => ([] : List (List ℚ))) ([] : List ℚ)))))) ⟨"l2", ⟨id, true⟩⟩ rfl⟩

theorem tmean_eq_listMean_flatten (A : List (List ℚ)) : tmean A = listMean A.flatten := by
  unfold tmean listMean
  rw [List.sum_flatten, List.length_flatten]

theorem flatten_map_matrix (g : ℚ → ℚ) (A : List (List ℚ)) :
    (A.map (List.map g)).flatten = A.flatten.map g := by
  induction A with
  | nil => rfl
  | cons x xs ih => simp only [List.map_cons, List.flatten_cons, List.map_append, ih]

theorem flatten_zipWith (f : ℚ → ℚ → ℚ) (A : List (List ℚ)) :
    ∀ B : List (List ℚ), A.map List.length = B.map List.length →
      (List.zipWith (List.zipWith f) A B).flatten = List.zipWith f A.flatten B.flatten := by
  induction A with
  | nil => intro B h; simp
  | cons a A ih =>
    intro B h
    cases B with
    | nil => simp at h
    | cons b B =>
      simp only [List.map_cons, List.cons.injEq] at h
      obtain ⟨h1, h2⟩ := h
      simp only [List.zipWith_cons_cons, List.flatten_cons]
      rw [ih B h2, List.zipWith_append f a A.flatten b B.flatten h1]

theorem matSq_rowScale_map (f : ℚ → ℚ) (E : List ℚ) (D : List (List ℚ)) :
    matSq (rowScale (E.map f) D) =
      List.zipWith (fun e r => r.map (fun d => (f e * d) ^ 2)) E D := by
  unfold matSq rowScale
  rw [List.zipWith_map_left, List.map_zipWith]
  congr 1
  funext e r
  rw [List.map_map]
  rfl

theorem rowScale_map_matAbs (f : ℚ → ℚ) (E : List ℚ) (D : List (List ℚ)) :
    rowScale (E.map f) (matAbs D) =
      List.zipWith (fun e r => r.map (fun d => f e * |d|)) E D := by
  unfold matAbs rowScale
  rw [List.zipWith_map_left, List.zipWith_map_right]
  congr 1
  funext e r
  rw [List.map_map]
  rfl

/-- C2: on any pair of waveform batches (with the two embeddings of matching
shape), `AcousticLoss.forward` returns, for kind `l2`, the mean squared error
between the two embeddings; for `l1` the mean absolute error; for
`frame_energy_weighted_l2` the mean of `(w · (enhanced − clean))²` with the
per-frame weight `w = sqrt(sigmoid(enhanced short-time energy))` broadcast
over the embedding dimension; and for `frame_energy_weighted_l1` the mean of
`sigmoid(enhanced short-time energy) · |enhanced − clean|`. -/
theorem acousticLoss_forward_formulas (sig sqrtQ : ℚ → ℚ)
    (stft : List ℚ → List (List ℚ)) (stE : List ℚ → List ℚ) (est : AcEstimator)
    (clean enhan : List ℚ) (mode : String)
    (hmode : mode = "train" ∨ mode = "eval")
    (hshape : (est.apply (stft enhan)).map List.length
      = (est.apply (stft clean)).map List.length) :
    acousticLossValue (acousticLossForward sig sqrtQ stft stE ⟨"l2", est⟩ clean enhan mode)
      = Except.ok (specMSE (est.apply (stft enhan)) (est.apply (stft clean))) ∧
    acousticLossValue (acousticLossForward sig sqrtQ stft stE ⟨"l1", est⟩ clean enhan mode)
      = Except.ok (specMAE (est.apply (stft enhan)) (est.apply (stft clean))) ∧
    acousticLossValue (acousticLossForward sig sqrtQ stft stE
        ⟨"frame_energy_weighted_l2", est⟩ clean enhan mode)
      = Except.ok (specFEWL2 sig sqrtQ (stE enhan) (est.apply (stft enhan))
          (est.apply (stft clean))) ∧
    acousticLossValue (acousticLossForward sig sqrtQ stft stE
        ⟨"frame_energy_weighted_l1", est⟩ clean enhan mode)
      = Except.ok (specFEWL1 sig (stE enhan) (est.apply (stft enhan))
          (est.apply (stft clean))) := by
  have hMSE : tmean (matSq (matSub (est.apply (stft enhan)) (est.apply (stft clean))))
      = specMSE (est.apply (stft enhan)) (est.apply (stft clean)) := by
    rw [tmean_eq_listMean_flatten]
    unfold matSq specMSE
    rw [flatten_map_matrix]
    unfold matSub
    rw [flatten_zipWith _ _ _ hshape, List.map_zipWith]
  have hMAE : tmean (matAbs (matSub (est.apply (stft enhan)) (est.apply (stft clean))))
      = specMAE (est.apply (stft enhan)) (est.apply (stft clean)) := by
    rw [tmean_eq_listMean_flatten]
    unfold matAbs specMAE
    rw [flatten_map_matrix]
    unfold matSub
    rw [flatten_zipWith _ _ _ hshape, List.map_zipWith]
  have hW2 : tmean (matSq (rowScale ((stE enhan).map (fun e => sqrtQ (sig e)))
        (matSub (est.apply (stft enhan)) (est.apply (stft clean)))))
      = specFEWL2 sig sqrtQ (stE enhan) (est.apply (stft enhan))
          (est.apply (stft clean)) := by
    rw [tmean_eq_listMean_flatten, matSq_rowScale_map]
    rfl
  have hW1 : tmean (rowScale ((stE enhan).map sig)
        (matAbs (matSub (est.apply (stft enhan)) (est.apply (stft clean)))))
      = specFEWL1 sig (stE enhan) (est.apply (stft enhan)) (est.apply (stft clean)) := by
    rw [tmean_eq_listMean_flatten, rowScale_map_matAbs]
    rfl
  rcases hmode with rfl | rfl <;>
    exact ⟨by simp [acousticLossForward, acousticLossForwardBody, acousticLossValue, Except.map, hMSE],
      by simp [acousticLossForward, acousticLossForwardBody, acousticLossValue, Except.map, hMAE],
      by simp [acousticLossForward, acousticLossForwardBody, acousticLossValue, Except.map, hW2],
      by simp [acousticLossForward, acousticLossForwardBody, acousticLossValue, Except.map, hW1]⟩

theorem acousticLoss_forward_formulas_witness :
    acousticLossValue (acousticLossForward id id (fun w => [w]) (fun w => w)
        ⟨"l2", ⟨id, false⟩⟩ [1, 2] [2, 4] "train")
      = Except.ok (specMSE [[2, 4]] [[1, 2]]) ∧
    acousticLossValue (acousticLossForward id id (fun w => [w]) (fun w => w)
        ⟨"frame_energy_weighted_l1", ⟨id, false⟩⟩ [1, 2] [2, 4] "train")
      = Except.ok (specFEWL1 id [2, 4] [[2, 4]] [[1, 2]]) :=
  ⟨(acousticLoss_forward_formulas id id (fun w => [w]) (fun w => w) ⟨id, false⟩
      [1, 2] [2, 4] "train" (Or.inl rfl) (by decide)).1,
   (acousticLoss_forward_formulas id id (fun w => [w]) (fun w => w) ⟨id, false⟩
      [1, 2] [2, 4] "train" (Or.inl rfl) (by decide)).2.2.2⟩

theorem eC_zero (N : ℕ) : eC N 0 = 1 := by
  unfold eC
  simp

theorem eC_add (N : ℕ) (a b : ℤ) : eC N (a + b) = eC N a * eC N b := by
  unfold eC
  rw [← Complex.exp_add]
  congr 1
  push_cast
  ring

theorem eC_pow (N : ℕ) (j : ℤ) (m : ℕ) : eC N j ^ m = eC N (j * m) := by
  induction m with
  | zero => simp [eC_zero]
  | succ m ih =>
    rw [pow_succ, ih, ← eC_add]
    congr 1
    push_cast
    ring

theorem eC_dvd (N : ℕ) (hN : N ≠ 0) (j : ℤ) (h : (N : ℤ) ∣ j) : eC N j = 1 := by
  obtain ⟨m, rfl⟩ := h
  unfold eC
  have hNC : (N : ℂ) ≠ 0 := Nat.cast_ne_zero.mpr hN
  rw [show (2 * (Real.pi : ℂ) * Complex.I * (((N : ℤ) * m : ℤ) : ℂ) / (N : ℂ))
      = ((m : ℤ) : ℂ) * (2 * (Real.pi : ℂ) * Complex.I) by
    push_cast
    field_simp
    ring]
  exact Complex.exp_int_mul_two_pi_mul_I m

theorem eC_eq_one_iff (N : ℕ) (hN : N ≠ 0) (j : ℤ) : eC N j = 1 ↔ (N : ℤ) ∣ j := by
  constructor
  · intro h
    unfold eC at h
    rw [Complex.exp_eq_one_iff] at h
    obtain ⟨n, hn⟩ := h
    have hNC : (N : ℂ) ≠ 0 := Nat.cast_ne_zero.mpr hN
    have hpi : (2 * (Real.pi : ℂ) * Complex.I) ≠ 0 :=
      mul_ne_zero (mul_ne_zero two_ne_zero (Complex.ofReal_ne_zero.mpr Real.pi_ne_zero))
        Complex.I_ne_zero
    have h2 : (2 * (Real.pi : ℂ) * Complex.I) * (j : ℂ)
        = (2 * (Real.pi : ℂ) * Complex.I) * ((n : ℂ) * (N : ℂ)) := by
      field_simp at hn
      linear_combination hn
    have h3 : (j : ℂ) = (n : ℂ) * (N : ℂ) := mul_left_cancel₀ hpi h2
    have h4 : j = n * N := by exact_mod_cast h3
    exact ⟨n, by rw [h4]; ring⟩
  · exact eC_dvd N hN j

theorem orthSum (N : ℕ) (hN : N ≠ 0) (j : ℤ) :
    ∑ k ∈ Finset.range N, eC N (j * k) = if (N : ℤ) ∣ j then (N : ℂ) else 0 := by
  by_cases h : (N : ℤ) ∣ j
  · rw [if_pos h]
    have h1 : ∑ k ∈ Finset.range N, eC N (j * k) = ∑ _k ∈ Finset.range N, (1 : ℂ) :=
      Finset.sum_congr rfl (fun k _ => eC_dvd N hN (j * k) (Dvd.dvd.mul_right h k))
    rw [h1]
    simp
  · rw [if_neg h]
    have hne : eC N j ≠ 1 := fun hc => h ((eC_eq_one_iff N hN j).mp hc)
    have h1 : ∑ k ∈ Finset.range N, eC N (j * k) = ∑ k ∈ Finset.range N, eC N j ^ k :=
      Finset.sum_congr rfl (fun k _ => (eC_pow N j k).symm)
    rw [h1, geom_sum_eq hne N, eC_pow, eC_dvd N hN (j * N) ⟨j, by ring⟩]
    simp

theorem dft_eq_eC (N : ℕ) (x : ℕ → ℝ) (k : ℕ) :
    dft N x k = ∑ n ∈ Finset.range N, (x n : ℂ) * eC N (-((k : ℤ) * n)) := by
  unfold dft eC
  apply Finset.sum_congr rfl
  intro n _
  congr 1
  congr 1
  push_cast
  ring

theorem conj_eC (N : ℕ) (j : ℤ) : (starRingEnd ℂ) (eC N j) = eC N (-j) := by
  unfold eC
  rw [← Complex.exp_conj]
  congr 1
  simp only [map_div₀, map_mul, Complex.conj_I, Complex.conj_ofReal, map_intCast,
    map_natCast, map_ofNat]
  push_cast
  ring

theorem conj_dft (N : ℕ) (x : ℕ → ℝ) (k : ℕ) :
    (starRingEnd ℂ) (dft N x k) = ∑ n ∈ Finset.range N, (x n : ℂ) * eC N ((k : ℤ) * n) := by
  rw [dft_eq_eC, map_sum]
  apply Finset.sum_congr rfl
  intro n _
  rw [map_mul, Complex.conj_ofReal, conj_eC, neg_neg]

theorem int_dvd_sub_iff (N m n : ℕ) (hm : m < N) (hn : n < N) :
    ((N : ℤ) ∣ ((m : ℤ) - n)) ↔ m = n := by
  constructor
  · intro h
    have habs : |((m : ℤ) - n)| < N := by
      rw [abs_lt]
      constructor <;> omega
    have h0 := Int.eq_zero_of_abs_lt_dvd h habs
    omega
  · rintro rfl
    simp

theorem sum_normSq_dft (N : ℕ) (hN : N ≠ 0) (x : ℕ → ℝ) :
    ∑ k ∈ Finset.range N, ((Complex.normSq (dft N x k) : ℝ) : ℂ)
      = (N : ℂ) * ∑ n ∈ Finset.range N, ((x n : ℂ)) ^ 2 := by
  have hterm : ∀ k ∈ Finset.range N,
      ((Complex.normSq (dft N x k) : ℝ) : ℂ)
        = ∑ n ∈ Finset.range N, ∑ m ∈ Finset.range N,
            (x n : ℂ) * (x m : ℂ) * eC N (((m : ℤ) - n) * k) := by
    intro k _
    rw [← Complex.mul_conj (dft N x k)]
    rw [conj_dft, dft_eq_eC, Finset.sum_mul_sum]
    apply Finset.sum_congr rfl
    intro n _
    apply Finset.sum_congr rfl
    intro m _
    rw [mul_mul_mul_comm, ← eC_add]
    congr 2
    ring
  have hsum1 : ∑ k ∈ Finset.range N, ((Complex.normSq (dft N x k) : ℝ) : ℂ)
      = ∑ k ∈ Finset.range N, ∑ n ∈ Finset.range N, ∑ m ∈ Finset.range N,
          (x n : ℂ) * (x m : ℂ) * eC N (((m : ℤ) - n) * k) :=
    Finset.sum_congr rfl hterm
  rw [hsum1, Finset.sum_comm]
  have hinner : ∀ n ∈ Finset.range N,
      (∑ k ∈ Finset.range N, ∑ m ∈ Finset.range N,
        (x n : ℂ) * (x m : ℂ) * eC N (((m : ℤ) - n) * k))
      = (x n : ℂ) * (x n : ℂ) * N := by
    intro n hn
    rw [Finset.sum_comm]
    have hm : ∀ m ∈ Finset.range N,
        (∑ k ∈ Finset.range N, (x n : ℂ) * (x m : ℂ) * eC N (((m : ℤ) - n) * k))
        = if m = n then (x n : ℂ) * (x m : ℂ) * N else 0 := by
      intro m hmm
      rw [← Finset.mul_sum, orthSum N hN ((m : ℤ) - n)]
      rw [if_congr (int_dvd_sub_iff N m n (Finset.mem_range.mp hmm)
        (Finset.mem_range.mp hn)) rfl rfl]
      rw [mul_ite, mul_zero]
    have hsum2 : ∑ m ∈ Finset.range N,
        (∑ k ∈ Finset.range N, (x n : ℂ) * (x m : ℂ) * eC N (((m : ℤ) - n) * k))
        = ∑ m ∈ Finset.range N,
            (if m = n then (x n : ℂ) * (x m : ℂ) * N else 0) :=
      Finset.sum_congr rfl hm
    rw [hsum2]
    rw [Finset.sum_ite_eq' (Finset.range N) n (fun m => (x n : ℂ) * (x m : ℂ) * N)]
    simp [Finset.mem_range.mp hn]
  have hsum3 : ∑ n ∈ Finset.range N,
      (∑ k ∈ Finset.range N, ∑ m ∈ Finset.range N,
        (x n : ℂ) * (x m : ℂ) * eC N (((m : ℤ) - n) * k))
      = ∑ n ∈ Finset.range N, (x n : ℂ) * (x n : ℂ) * N :=
    Finset.sum_congr rfl hinner
  rw [hsum3, Finset.mul_sum]
  apply Finset.sum_congr rfl
  intro n _
  ring

theorem parseval_dft (N : ℕ) (hN : N ≠ 0) (x : ℕ → ℝ) :
    ∑ k ∈ Finset.range N, Complex.normSq (dft N x k)
      = N * ∑ n ∈ Finset.range N, x n ^ 2 := by
  have h := sum_normSq_dft N hN x
  exact_mod_cast h

theorem dft_reflect (N : ℕ) (hN : N ≠ 0) (x : ℕ → ℝ) (k : ℕ) (hk : k ≤ N) :
    dft N x (N - k) = (starRingEnd ℂ) (dft N x k) := by
  rw [dft_eq_eC, conj_dft]
  apply Finset.sum_congr rfl
  intro n _
  congr 1
  have hcast : (((N - k : ℕ) : ℤ)) = (N : ℤ) - k := by omega
  rw [show (-(((N - k : ℕ) : ℤ) * n)) = ((k : ℤ) * n) + (-((N : ℤ) * n)) by
    rw [hcast]; ring]
  rw [eC_add, eC_dvd N hN (-((N : ℤ) * n)) ⟨-(n : ℤ), by ring⟩]
  ring

theorem normSq_dft_reflect (N : ℕ) (hN : N ≠ 0) (x : ℕ → ℝ) (k : ℕ) (hk : k ≤ N) :
    Complex.normSq (dft N x (N - k)) = Complex.normSq (dft N x k) := by
  rw [dft_reflect N hN x k hk]
  exact Complex.normSq_conj _

theorem half_spectrum_sum (x : ℕ → ℝ) :
    2 * (∑ k ∈ Finset.range 257, Complex.normSq (dft 512 x k)) =
      (∑ k ∈ Finset.range 512, Complex.normSq (dft 512 x k))
        + Complex.normSq (dft 512 x 0) + Complex.normSq (dft 512 x 256) := by
  set g : ℕ → ℝ := fun k => Complex.normSq (dft 512 x k) with hg
  have hsym : ∀ j ∈ Finset.range 255, g (257 + j) = g (255 - j) := by
    intro j hj
    have hj' : j < 255 := Finset.mem_range.mp hj
    have h2 : 512 - (255 - j) = 257 + j := by omega
    show Complex.normSq (dft 512 x (257 + j)) = Complex.normSq (dft 512 x (255 - j))
    rw [← h2]
    exact normSq_dft_reflect 512 (by norm_num) x (255 - j) (by omega)
  have hc := Finset.sum_Ico_consecutive g
    (by norm_num : (0 : ℕ) ≤ 257) (by norm_num : (257 : ℕ) ≤ 512)
  have h1 : ∑ k ∈ Finset.Ico 0 257, g k = ∑ k ∈ Finset.range 257, g k := by
    rw [Finset.range_eq_Ico]
  have h2' : ∑ k ∈ Finset.Ico 0 512, g k = ∑ k ∈ Finset.range 512, g k := by
    rw [Finset.range_eq_Ico]
  have h3 := Finset.sum_Ico_eq_sum_range g 257 512
  norm_num at h3
  have hrefl : ∑ j ∈ Finset.range 255, g (257 + j) = ∑ j ∈ Finset.range 255, g (j + 1) := by
    have e1 : ∑ j ∈ Finset.range 255, g (257 + j) = ∑ j ∈ Finset.range 255, g (255 - j) :=
      Finset.sum_congr rfl hsym
    have e2 : ∑ j ∈ Finset.range 255, g (255 - j)
        = ∑ j ∈ Finset.range 255, g ((255 - 1 - j) + 1) := by
      apply Finset.sum_congr rfl
      intro j hj
      have := Finset.mem_range.mp hj
      congr 1
      omega
    have e3 := Finset.sum_range_reflect (fun j => g (j + 1)) 255
    rw [e1, e2]
    exact e3
  have a1 : ∑ k ∈ Finset.range 257, g k = ∑ k ∈ Finset.range 256, g k + g 256 := by
    have := Finset.sum_range_succ g 256
    norm_num at this
    exact this
  have a2 : ∑ k ∈ Finset.range 256, g k = (∑ j ∈ Finset.range 255, g (j + 1)) + g 0 := by
    have := Finset.sum_range_succ' g 255
    norm_num at this
    exact this
  have hfull : ∑ k ∈ Finset.range 512, g k
      = (∑ k ∈ Finset.range 257, g k) + ∑ j ∈ Finset.range 255, g (257 + j) := by
    rw [← h2', ← hc, h1, h3]
  show 2 * ∑ k ∈ Finset.range 257, g k = (∑ k ∈ Finset.range 512, g k) + g 0 + g 256
  rw [hfull, hrefl, a1, a2]
  ring

/-- Exact value of the short-time energy computed by `get_stft`: the
frequency-domain formula equals the time-domain frame energy plus the extra
`(|X₀|² + |X_{N/2}|²)/N` contributed by double-counting the DC and Nyquist
bins in the one-sided spectrum. -/
theorem stEnergyFrame_eq (x : ℕ → ℝ) :
    stEnergyFrame x = frameTimeEnergy x
      + (Complex.normSq (dft 512 x 0) + Complex.normSq (dft 512 x 256)) / 512 := by
  have hre : ∀ k ∈ Finset.range (nfft / 2 + 1),
      specRealPart nfft x k ^ 2 + specImagPart nfft x k ^ 2
        = Complex.normSq (dft nfft x k) := by
    intro k _
    rw [Complex.normSq_apply]
    unfold specRealPart specImagPart
    ring
  unfold stEnergyFrame
  have hsum : ∑ k ∈ Finset.range (nfft / 2 + 1),
      (specRealPart nfft x k ^ 2 + specImagPart nfft x k ^ 2)
      = ∑ k ∈ Finset.range (nfft / 2 + 1), Complex.normSq (dft nfft x k) :=
    Finset.sum_congr rfl hre
  rw [hsum]
  have hp := parseval_dft 512 (by norm_num) x
  have hh := half_spectrum_sum x
  unfold frameTimeEnergy
  show (∑ k ∈ Finset.range (nfft / 2 + 1), Complex.normSq (dft nfft x k)) * (2 / (nfft : ℝ))
    = (∑ n ∈ Finset.range nfft, x n ^ 2)
      + (Complex.normSq (dft 512 x 0) + Complex.normSq (dft 512 x 256)) / 512
  have hn : nfft = 512 := rfl
  rw [hn]
  have h257 : (512 : ℕ) / 2 + 1 = 257 := by norm_num
  rw [h257]
  have hcast : ((512 : ℕ) : ℝ) = (512 : ℝ) := by norm_num
  rw [hcast]
  have hhalfval : ∑ k ∈ Finset.range 257, Complex.normSq (dft 512 x k)
      = ((∑ k ∈ Finset.range 512, Complex.normSq (dft 512 x k))
          + Complex.normSq (dft 512 x 0) + Complex.normSq (dft 512 x 256)) / 2 := by
    linarith [hh]
  rw [hhalfval, hp]
  push_cast
  field_simp
  ring

/-- C7 (amended): for every waveform and every analysis frame, the short-time
energy returned by `get_stft` — the per-frame sum over the one-sided
frequency bins of squared real plus squared imaginary parts, scaled by
`2/fft_size` — equals the time-domain sum of squared samples of that
(rectangular-)windowed frame PLUS `(|X₀|² + |X_{N/2}|²)/fft_size`, the
double-counted DC and Nyquist contributions; it equals the time-domain
energy alone only when those two bins vanish, not for every batch. -/
theorem stEnergy_freq_time_identity (w : ℕ → ℝ) (t : ℕ) :
    stEnergyFrame (frameOf w t) = frameTimeEnergy (frameOf w t)
      + (Complex.normSq (dft 512 (frameOf w t) 0)
         + Complex.normSq (dft 512 (frameOf w t) 256)) / 512 :=
  stEnergyFrame_eq (frameOf w t)

theorem dft_const_one (N k : ℕ) (hN : N ≠ 0) :
    dft N (fun _ => (1 : ℝ)) k = if (N : ℤ) ∣ (-(k : ℤ)) then (N : ℂ) else 0 := by
  rw [dft_eq_eC]
  have h1 : ∀ n ∈ Finset.range N,
      ((1 : ℝ) : ℂ) * eC N (-((k : ℤ) * n)) = eC N ((-(k : ℤ)) * n) := by
    intro n _
    rw [Complex.ofReal_one, one_mul]
    congr 1
    ring
  have h2 : ∑ n ∈ Finset.range N, ((1 : ℝ) : ℂ) * eC N (-((k : ℤ) * n))
      = ∑ n ∈ Finset.range N, eC N ((-(k : ℤ)) * n) := Finset.sum_congr rfl h1
  rw [h2, orthSum N hN (-(k : ℤ))]

theorem dft_const_one_zero : dft 512 (fun _ => (1 : ℝ)) 0 = (512 : ℂ) := by
  rw [dft_const_one 512 0 (by norm_num)]
  norm_num

theorem dft_const_one_nyquist : dft 512 (fun _ => (1 : ℝ)) 256 = 0 := by
  rw [dft_const_one 512 256 (by norm_num)]
  rw [if_neg]
  intro h
  have h2 : ((512 : ℤ)) ∣ ((256 : ℕ) : ℤ) := (dvd_neg).mp h
  rw [Int.dvd_iff_emod_eq_zero] at h2
  norm_num at h2

/-- C7 counterexample: for the constant waveform `1`, the frequency-domain
short-time energy of a frame is `1024` while the time-domain frame energy is
`512` — a relative error of `1`, far outside any small tolerance such as the
spec's `1e-4`: the claimed equality-within-tolerance does not hold for every
waveform batch. -/
theorem stEnergy_tolerance_counterexample :
    ¬ (|stEnergyFrame (frameOf (fun _ => (1 : ℝ)) 0)
        - frameTimeEnergy (frameOf (fun _ => (1 : ℝ)) 0)|
      ≤ (1 / 10000) * |frameTimeEnergy (frameOf (fun _ => (1 : ℝ)) 0)|) := by
  have hfr : frameOf (fun _ => (1 : ℝ)) 0 = fun _ => (1 : ℝ) := rfl
  rw [hfr]
  have htime : frameTimeEnergy (fun _ => (1 : ℝ)) = 512 := by
    unfold frameTimeEnergy
    norm_num [nfft]
  have hst : stEnergyFrame (fun _ => (1 : ℝ)) = 1024 := by
    rw [stEnergyFrame_eq, htime, dft_const_one_zero, dft_const_one_nyquist]
    norm_num [Complex.normSq_apply]
  rw [htime, hst]
  norm_num

end DenoiserSpec
